import Mathlib

/-!
Shallow embedding of `blockchain.py`: a minimal append-only ledger with
block digests, brute-force proof-of-work sealing, and chain validation.

The SHA-256-over-canonical-JSON digest of `Block.calculate_hash` is
modelled by an abstract hash function `H : BlockData → String` over the
five hashed fields; every statement is parametric in `H`.  The unbounded
`while` loop of `proof_of_work` is modelled with explicit fuel: `none`
means the search has not yet terminated within the given fuel, matching
the spec's "potentially unbounded" search.  Console reporting (`print`)
is modelled by explicit success flags and a `TamperReport` value.
-/

/-- A transaction record `{sender, receiver, amount}`.  Python amounts are
ordinary numbers; we embed them as rationals. -/
structure Transaction where
  sender : String
  receiver : String
  amount : Rat
deriving DecidableEq, Repr

/-- The five fields of a block that feed `calculate_hash` (the JSON object
serialized with sorted keys in the source). -/
structure BlockData where
  index : Nat
  transactions : List Transaction
  timestamp : String
  previous_hash : String
  nonce : Nat
deriving DecidableEq, Repr

/-- Abstract model of `hashlib.sha256(json.dumps(..., sort_keys=True)).hexdigest()`:
a function from the hashed block fields to a hex-digest string. -/
abbrev HashFn := BlockData → String

/-- A block: the five hashed fields plus the stored `hash` field. -/
structure Block where
  index : Nat
  transactions : List Transaction
  timestamp : String
  previous_hash : String
  nonce : Nat
  hash : String
deriving DecidableEq, Repr

/-- The hashed fields of a block (everything except the stored `hash`). -/
def Block.data (b : Block) : BlockData :=
  { index := b.index, transactions := b.transactions, timestamp := b.timestamp,
    previous_hash := b.previous_hash, nonce := b.nonce }

/-- `Block.calculate_hash`: the digest of the block's current field values. -/
def calculate_hash (H : HashFn) (b : Block) : String :=
  H b.data

/-- `Block.__init__`: construct a block with the given fields and `hash`
set to the digest computed immediately from them. -/
def Block.make (H : HashFn) (index : Nat) (transactions : List Transaction)
    (timestamp : String) (previous_hash : String) (nonce : Nat) : Block :=
  { index := index, transactions := transactions, timestamp := timestamp,
    previous_hash := previous_hash, nonce := nonce,
    hash := H { index := index, transactions := transactions, timestamp := timestamp,
                previous_hash := previous_hash, nonce := nonce } }

/-- `'0' * difficulty`: the string of `difficulty` zero characters. -/
def leadingZeros (difficulty : Nat) : String :=
  String.mk (List.replicate difficulty '0')

/-- `computed_hash.startswith('0' * difficulty)`: the first `difficulty`
characters of `s` exist and are all `'0'`. -/
def meetsDifficulty (difficulty : Nat) (s : String) : Bool :=
  decide (s.data.take difficulty = (leadingZeros difficulty).data)

/-- The `while` loop of `proof_of_work`: check the digest of the current
nonce; on failure increment the nonce and retry.  `fuel` bounds the number
of increments; `none` means the loop has not terminated within `fuel`. -/
def powLoop (H : HashFn) (difficulty : Nat) (fuel : Nat) (b : Block) :
    Option (Block × String) :=
  let computed := calculate_hash H b
  if meetsDifficulty difficulty computed then some (b, computed)
  else
    match fuel with
    | 0 => none
    | Nat.succ fuel' => powLoop H difficulty fuel' { b with nonce := b.nonce + 1 }

/-- `Blockchain.proof_of_work`: reset `block.nonce` to 0, then search.  On
success returns the block (with its winning nonce) and the valid digest. -/
def proof_of_work (H : HashFn) (difficulty : Nat) (fuel : Nat) (b : Block) :
    Option (Block × String) :=
  powLoop H difficulty fuel { b with nonce := 0 }

/-- The blockchain state: block list, difficulty, pending transactions. -/
structure Blockchain where
  chain : List Block
  difficulty : Nat
  pending_transactions : List Transaction
deriving DecidableEq, Repr

/-- The synthetic transaction placed in the genesis block by
`create_genesis_block`: `{"sender": "Genesis", "receiver": "Network", "amount": 0}`. -/
def genesisTransaction : Transaction :=
  { sender := "Genesis", receiver := "Network", amount := 0 }

/-- `Blockchain.create_genesis_block`: build the genesis block at index 0
with `previous_hash = "0"`, seal it via `proof_of_work`, and append it.
The construction timestamp is a parameter (the source reads the clock). -/
def create_genesis_block (H : HashFn) (timestamp : String) (fuel : Nat)
    (bc : Blockchain) : Option Blockchain :=
  let genesis_block := Block.make H 0 [genesisTransaction] timestamp "0" 0
  match proof_of_work H bc.difficulty fuel genesis_block with
  | none => none
  | some (b, h) =>
      some { bc with chain := bc.chain ++ [{ b with hash := h }] }

/-- `Blockchain.__init__`: empty chain, difficulty 4, empty pending buffer,
then create and append the genesis block. -/
def Blockchain.init (H : HashFn) (timestamp : String) (fuel : Nat) :
    Option Blockchain :=
  create_genesis_block H timestamp fuel
    { chain := [], difficulty := 4, pending_transactions := [] }

/-- `Blockchain.get_latest_block`: `self.chain[-1]` (`none` on an empty
chain, where the source would raise). -/
def get_latest_block (bc : Blockchain) : Option Block :=
  bc.chain.getLast?

/-- `Blockchain.add_transaction`: validate `sender and receiver and amount > 0`
(non-empty strings, positive amount); on success append the transaction to
the pending buffer.  The `Bool` records success versus the
"Invalid transaction" report. -/
def add_transaction (bc : Blockchain) (sender receiver : String) (amount : Rat) :
    Blockchain × Bool :=
  if sender ≠ "" ∧ receiver ≠ "" ∧ 0 < amount then
    ({ bc with pending_transactions :=
        bc.pending_transactions ++ [{ sender := sender, receiver := receiver, amount := amount }] },
     true)
  else
    (bc, false)

/-- `Blockchain.mine_block`: on an empty buffer report failure with no state
change; otherwise build a candidate block from the buffer and the latest
block's hash, seal it by proof-of-work, append it, and clear the buffer.
`none` covers a non-terminating search (and the impossible empty-chain read). -/
def mine_block (H : HashFn) (timestamp : String) (fuel : Nat) (bc : Blockchain) :
    Option (Blockchain × Bool) :=
  if bc.pending_transactions.isEmpty then some (bc, false)
  else
    match get_latest_block bc with
    | none => none
    | some latest =>
        let block := Block.make H bc.chain.length bc.pending_transactions timestamp latest.hash 0
        match proof_of_work H bc.difficulty fuel block with
        | none => none
        | some (b, h) =>
            some ({ bc with chain := bc.chain ++ [{ b with hash := h }],
                            pending_transactions := [] },
                  true)

/-- The report produced by a failed validation: which index was flagged, and
by which check ("has been tampered!" versus "has an invalid previous hash!"). -/
inductive TamperReport where
  | badHash : Nat → TamperReport
  | badLink : Nat → TamperReport
deriving DecidableEq, Repr

/-- The loop of `is_chain_valid`, walking the chain from index `i` with
`previous` the block at `i - 1`: recompute the current block's digest and
compare with its stored hash, then check linkage; stop at the first failure. -/
def validateFrom (H : HashFn) (previous : Block) (rest : List Block) (i : Nat) :
    Option TamperReport :=
  match rest with
  | [] => none
  | current :: rest' =>
      if current.hash ≠ calculate_hash H current then some (TamperReport.badHash i)
      else if current.previous_hash ≠ previous.hash then some (TamperReport.badLink i)
      else validateFrom H current rest' (i + 1)

/-- `Blockchain.is_chain_valid` together with its report: scan blocks from
index 1 onward; `none` means valid. -/
def is_chain_valid_report (H : HashFn) (bc : Blockchain) : Option TamperReport :=
  match bc.chain with
  | [] => none
  | g :: rest => validateFrom H g rest 1

/-- `Blockchain.is_chain_valid`'s boolean result. -/
def is_chain_valid (H : HashFn) (bc : Blockchain) : Bool :=
  (is_chain_valid_report H bc).isNone

/-- The chain states reachable from a fresh `Blockchain()` by any finite
sequence of `add_transaction` and `mine_block` calls (with arbitrary
timestamps and any terminating proof-of-work searches). -/
inductive Reachable (H : HashFn) : Blockchain → Prop where
  | init : ∀ timestamp fuel bc, Blockchain.init H timestamp fuel = some bc →
      Reachable H bc
  | submit : ∀ bc sender receiver amount, Reachable H bc →
      Reachable H (add_transaction bc sender receiver amount).1
  | mine : ∀ bc timestamp fuel bc' r, Reachable H bc →
      mine_block H timestamp fuel bc = some (bc', r) → Reachable H bc'

/-! ### Proof-of-work lemmas -/

theorem powLoop_spec (H : HashFn) (d : Nat) :
    ∀ (fuel : Nat) (b b' : Block) (h : String),
      powLoop H d fuel b = some (b', h) →
      meetsDifficulty d h = true ∧ calculate_hash H b' = h ∧
      b'.index = b.index ∧ b'.transactions = b.transactions ∧
      b'.timestamp = b.timestamp ∧ b'.previous_hash = b.previous_hash ∧
      b'.hash = b.hash ∧ b.nonce ≤ b'.nonce ∧
      ∀ m, b.nonce ≤ m → m < b'.nonce →
        meetsDifficulty d (calculate_hash H { b with nonce := m }) = false := by
  intro fuel
  induction fuel with
  | zero =>
      intro b b' h heq
      simp only [powLoop] at heq
      by_cases hc : meetsDifficulty d (calculate_hash H b) = true
      · rw [if_pos hc] at heq
        have hb : b = b' ∧ calculate_hash H b = h := by
          constructor
          · exact congrArg Prod.fst (Option.some.inj heq)
          · exact congrArg Prod.snd (Option.some.inj heq)
        obtain ⟨rfl, rfl⟩ := hb
        exact ⟨hc, rfl, rfl, rfl, rfl, rfl, rfl, Nat.le_refl _,
          fun m hm1 hm2 => absurd hm2 (by omega)⟩
      · rw [if_neg hc] at heq
        exact Option.noConfusion heq
  | succ fuel ih =>
      intro b b' h heq
      simp only [powLoop] at heq
      by_cases hc : meetsDifficulty d (calculate_hash H b) = true
      · rw [if_pos hc] at heq
        have hb : b = b' ∧ calculate_hash H b = h := by
          constructor
          · exact congrArg Prod.fst (Option.some.inj heq)
          · exact congrArg Prod.snd (Option.some.inj heq)
        obtain ⟨rfl, rfl⟩ := hb
        exact ⟨hc, rfl, rfl, rfl, rfl, rfl, rfl, Nat.le_refl _,
          fun m hm1 hm2 => absurd hm2 (by omega)⟩
      · rw [if_neg hc] at heq
        obtain ⟨h1, h2, h3, h4, h5, h6, h7, h8, h9⟩ :=
          ih { b with nonce := b.nonce + 1 } b' h heq
        have h8' : b.nonce + 1 ≤ b'.nonce := h8
        have h9' : ∀ m, b.nonce + 1 ≤ m → m < b'.nonce →
            meetsDifficulty d (calculate_hash H { b with nonce := m }) = false :=
          fun m hm1 hm2 => h9 m hm1 hm2
        refine ⟨h1, h2, h3, h4, h5, h6, h7, by omega, ?_⟩
        intro m hm1 hm2
        rcases Nat.eq_or_lt_of_le hm1 with hm | hm
        · have hb : ({ b with nonce := m } : Block) = b := by
            rw [← hm]
          rw [hb]
          simpa using hc
        · exact h9' m hm hm2

theorem proof_of_work_spec (H : HashFn) (d : Nat) (fuel : Nat) (b b' : Block) (h : String)
    (heq : proof_of_work H d fuel b = some (b', h)) :
    meetsDifficulty d h = true ∧ calculate_hash H b' = h ∧
    b'.index = b.index ∧ b'.transactions = b.transactions ∧
    b'.timestamp = b.timestamp ∧ b'.previous_hash = b.previous_hash ∧
    b'.hash = b.hash ∧
    ∀ m, m < b'.nonce →
      meetsDifficulty d (calculate_hash H { b with nonce := m }) = false := by
  obtain ⟨h1, h2, h3, h4, h5, h6, h7, _, h9⟩ :=
    powLoop_spec H d fuel { b with nonce := 0 } b' h heq
  refine ⟨h1, h2, h3, h4, h5, h6, h7, ?_⟩
  intro m hm
  exact h9 m (Nat.zero_le m) hm

theorem proof_of_work_ignores_nonce (H : HashFn) (d : Nat) (fuel : Nat) (b : Block) (k : Nat) :
    proof_of_work H d fuel { b with nonce := k } = proof_of_work H d fuel b := rfl

theorem powLoop_hash_irrelevant (H : HashFn) (d : Nat) :
    ∀ (fuel : Nat) (b : Block) (x : String),
      powLoop H d fuel { b with hash := x } =
        (powLoop H d fuel b).map (fun p => ({ p.1 with hash := x }, p.2)) := by
  intro fuel
  induction fuel with
  | zero =>
      intro b x
      simp only [powLoop]
      by_cases hc : meetsDifficulty d (calculate_hash H b) = true
      · have hd : calculate_hash H ({ b with hash := x }) = calculate_hash H b := rfl
        rw [hd, if_pos hc, if_pos hc]
        rfl
      · have hd : calculate_hash H ({ b with hash := x }) = calculate_hash H b := rfl
        rw [hd, if_neg hc, if_neg hc]
        rfl
  | succ fuel ih =>
      intro b x
      simp only [powLoop]
      by_cases hc : meetsDifficulty d (calculate_hash H b) = true
      · have hd : calculate_hash H ({ b with hash := x }) = calculate_hash H b := rfl
        rw [hd, if_pos hc, if_pos hc]
        rfl
      · have hd : calculate_hash H ({ b with hash := x }) = calculate_hash H b := rfl
        rw [hd, if_neg hc, if_neg hc]
        exact ih { b with nonce := b.nonce + 1 } x

/-! ### Validation lemmas -/

/-- The last block of `previous :: rest` (the chain tail seen by the scan). -/
def lastOf (previous : Block) : List Block → Block
  | [] => previous
  | c :: rest => lastOf c rest

/-- `Linked H previous rest`: every block of `rest` passes both checks of
`is_chain_valid` when scanned after `previous` — its stored hash equals its
recomputed digest and its `previous_hash` equals its predecessor's hash. -/
def Linked (H : HashFn) : Block → List Block → Prop
  | _, [] => True
  | previous, current :: rest =>
      current.hash = calculate_hash H current ∧
      current.previous_hash = previous.hash ∧
      Linked H current rest

theorem validateFrom_eq_none_of_linked (H : HashFn) :
    ∀ (rest : List Block) (previous : Block) (i : Nat),
      Linked H previous rest → validateFrom H previous rest i = none := by
  intro rest
  induction rest with
  | nil => intro previous i _; rfl
  | cons current rest ih =>
      intro previous i hl
      obtain ⟨hh, hp, hrest⟩ := hl
      simp only [validateFrom]
      rw [if_neg (by simp [hh]), if_neg (by simp [hp])]
      exact ih current (i + 1) hrest

theorem linked_of_validateFrom_eq_none (H : HashFn) :
    ∀ (rest : List Block) (previous : Block) (i : Nat),
      validateFrom H previous rest i = none → Linked H previous rest := by
  intro rest
  induction rest with
  | nil => intro previous i _; trivial
  | cons current rest ih =>
      intro previous i hv
      simp only [validateFrom] at hv
      by_cases hh : current.hash = calculate_hash H current
      · rw [if_neg (by simp [hh])] at hv
        by_cases hp : current.previous_hash = previous.hash
        · rw [if_neg (by simp [hp])] at hv
          exact ⟨hh, hp, ih current (i + 1) hv⟩
        · rw [if_pos hp] at hv
          exact Option.noConfusion hv
      · rw [if_pos hh] at hv
        exact Option.noConfusion hv

theorem linked_append_sealed (H : HashFn) :
    ∀ (pre : List Block) (previous : Block) (b : Block),
      Linked H previous pre → b.hash = calculate_hash H b →
      b.previous_hash = (lastOf previous pre).hash →
      Linked H previous (pre ++ [b]) := by
  intro pre
  induction pre with
  | nil =>
      intro previous b _ hh hp
      exact ⟨hh, hp, trivial⟩
  | cons c pre ih =>
      intro previous b hl hh hp
      obtain ⟨h1, h2, h3⟩ := hl
      exact ⟨h1, h2, ih c b h3 hh hp⟩

theorem linked_take (H : HashFn) :
    ∀ (rest : List Block) (previous : Block) (n : Nat),
      Linked H previous rest → Linked H previous (rest.take n) := by
  intro rest
  induction rest with
  | nil => intro previous n _; simp [Linked]
  | cons c rest ih =>
      intro previous n hl
      obtain ⟨h1, h2, h3⟩ := hl
      cases n with
      | zero => trivial
      | succ n => exact ⟨h1, h2, ih c n h3⟩

theorem validateFrom_badHash_at (H : HashFn) :
    ∀ (pre : List Block) (previous : Block) (cur : Block) (tail : List Block) (i0 : Nat),
      Linked H previous pre → cur.hash ≠ calculate_hash H cur →
      validateFrom H previous (pre ++ cur :: tail) i0 =
        some (TamperReport.badHash (i0 + pre.length)) := by
  intro pre
  induction pre with
  | nil =>
      intro previous cur tail i0 _ hne
      simp only [List.nil_append, validateFrom]
      rw [if_pos hne]
      simp
  | cons c pre ih =>
      intro previous cur tail i0 hl hne
      obtain ⟨h1, h2, h3⟩ := hl
      simp only [List.cons_append, validateFrom]
      rw [if_neg (by simp [h1]), if_neg (by simp [h2])]
      show validateFrom H c (pre ++ cur :: tail) (i0 + 1) =
        some (TamperReport.badHash (i0 + (c :: pre).length))
      rw [ih c cur tail (i0 + 1) h3 hne]
      congr 2
      simp only [List.length_cons]
      omega

theorem validateFrom_badLink_at (H : HashFn) :
    ∀ (pre : List Block) (previous : Block) (cur : Block) (tail : List Block) (i0 : Nat),
      Linked H previous pre → cur.hash = calculate_hash H cur →
      cur.previous_hash ≠ (lastOf previous pre).hash →
      validateFrom H previous (pre ++ cur :: tail) i0 =
        some (TamperReport.badLink (i0 + pre.length)) := by
  intro pre
  induction pre with
  | nil =>
      intro previous cur tail i0 _ hh hne
      simp only [List.nil_append, validateFrom]
      have hne' : cur.previous_hash ≠ previous.hash := hne
      rw [if_neg (by simp [hh]), if_pos hne']
      simp
  | cons c pre ih =>
      intro previous cur tail i0 hl hh hne
      obtain ⟨h1, h2, h3⟩ := hl
      simp only [List.cons_append, validateFrom]
      rw [if_neg (by simp [h1]), if_neg (by simp [h2])]
      show validateFrom H c (pre ++ cur :: tail) (i0 + 1) =
        some (TamperReport.badLink (i0 + (c :: pre).length))
      rw [ih c cur tail (i0 + 1) h3 hh hne]
      congr 2
      simp only [List.length_cons]
      omega

theorem validateFrom_congr_head (H : HashFn) (previous previous' : Block)
    (rest : List Block) (i : Nat) (hh : previous.hash = previous'.hash) :
    validateFrom H previous rest i = validateFrom H previous' rest i := by
  cases rest with
  | nil => rfl
  | cons current rest => simp only [validateFrom, hh]

theorem linked_get (H : HashFn) :
    ∀ (rest : List Block) (g : Block), Linked H g rest →
      ∀ (j : Nat) (hj : j < rest.length),
        (rest.get ⟨j, hj⟩).hash = calculate_hash H (rest.get ⟨j, hj⟩) ∧
        (rest.get ⟨j, hj⟩).previous_hash =
          ((g :: rest).get ⟨j, Nat.lt_succ_of_lt hj⟩).hash := by
  intro rest
  induction rest with
  | nil => intro g _ j hj; exact absurd hj (by simp)
  | cons c rest ih =>
      intro g hl j hj
      obtain ⟨h1, h2, h3⟩ := hl
      cases j with
      | zero => exact ⟨h1, h2⟩
      | succ j =>
          have hj' : j < rest.length := by simpa using hj
          exact ih c h3 j hj'

/-! ### The reachable-state invariant -/

/-- The Transaction invariant of the spec: positive amount, non-empty parties. -/
def txOk (t : Transaction) : Prop :=
  t.sender ≠ "" ∧ t.receiver ≠ "" ∧ 0 < t.amount

/-- Structural invariant of every reachable blockchain state: the chain is a
genesis block (sealed, `previous_hash = "0"`, holding exactly the synthetic
transaction, meeting the difficulty target) followed by a fully linked tail
whose transactions are all valid, and the pending buffer holds only valid
transactions. -/
def ChainInv (H : HashFn) (bc : Blockchain) : Prop :=
  (∃ g rest, bc.chain = g :: rest ∧
    g.hash = calculate_hash H g ∧
    g.previous_hash = "0" ∧
    g.transactions = [genesisTransaction] ∧
    meetsDifficulty bc.difficulty g.hash = true ∧
    Linked H g rest ∧
    (∀ b ∈ rest, ∀ t ∈ b.transactions, txOk t)) ∧
  (∀ t ∈ bc.pending_transactions, txOk t)

theorem getLastQ_eq_lastOf :
    ∀ (rest : List Block) (g : Block), (g :: rest).getLast? = some (lastOf g rest) := by
  intro rest
  induction rest with
  | nil => intro g; rfl
  | cons c rest ih =>
      intro g
      rw [List.getLast?_cons_cons]
      exact ih c

theorem inv_init (H : HashFn) (ts : String) (fuel : Nat) (bc : Blockchain)
    (h : Blockchain.init H ts fuel = some bc) : ChainInv H bc := by
  simp only [Blockchain.init, create_genesis_block] at h
  rcases hpow : proof_of_work H 4 fuel (Block.make H 0 [genesisTransaction] ts "0" 0)
    with _ | ⟨b, hs⟩
  · rw [hpow] at h
    exact Option.noConfusion h
  · rw [hpow] at h
    obtain ⟨h1, h2, h3, h4, h5, h6, h7, _⟩ := proof_of_work_spec H 4 fuel _ b hs hpow
    have hbc := Option.some.inj h
    subst hbc
    refine ⟨⟨{ b with hash := hs }, [], by simp, ?_, ?_, ?_, ?_, trivial, by simp⟩,
      by simp⟩
    · show hs = calculate_hash H ({ b with hash := hs })
      have : calculate_hash H ({ b with hash := hs }) = calculate_hash H b := rfl
      rw [this, h2]
    · show b.previous_hash = "0"
      rw [h6]
      rfl
    · show b.transactions = [genesisTransaction]
      rw [h4]
      rfl
    · show meetsDifficulty 4 hs = true
      exact h1

theorem inv_submit (H : HashFn) (bc : Blockchain) (s r : String) (a : Rat)
    (hInv : ChainInv H bc) : ChainInv H (add_transaction bc s r a).1 := by
  obtain ⟨hchain, hpend⟩ := hInv
  rw [add_transaction]
  by_cases hc : s ≠ "" ∧ r ≠ "" ∧ 0 < a
  · rw [if_pos hc]
    refine ⟨hchain, ?_⟩
    intro t ht
    rcases List.mem_append.mp ht with ht | ht
    · exact hpend t ht
    · have : t = { sender := s, receiver := r, amount := a } := by simpa using ht
      rw [this]
      exact hc
  · rw [if_neg hc]
    exact ⟨hchain, hpend⟩

theorem inv_mine (H : HashFn) (ts : String) (fuel : Nat) (bc bc' : Blockchain) (r : Bool)
    (hInv : ChainInv H bc) (hmine : mine_block H ts fuel bc = some (bc', r)) : ChainInv H bc' := by
  obtain ⟨⟨g, rest, hchain, hg1, hg2, hg3, hg4, hlink, htxs⟩, hpend⟩ := hInv
  by_cases hp : bc.pending_transactions.isEmpty
  · rw [mine_block, if_pos hp] at hmine
    have := Option.some.inj hmine
    have hbc : bc = bc' := congrArg Prod.fst this
    subst hbc
    exact ⟨⟨g, rest, hchain, hg1, hg2, hg3, hg4, hlink, htxs⟩, hpend⟩
  · have hlast : get_latest_block bc = some (lastOf g rest) := by
      rw [get_latest_block, hchain]
      exact getLastQ_eq_lastOf rest g
    simp only [mine_block, if_neg hp, hlast] at hmine
    rcases hpow : proof_of_work H bc.difficulty fuel
        (Block.make H bc.chain.length bc.pending_transactions ts (lastOf g rest).hash 0)
      with _ | ⟨b, hs⟩
    · rw [hpow] at hmine
      exact Option.noConfusion hmine
    · rw [hpow] at hmine
      obtain ⟨p1, p2, p3, p4, p5, p6, p7, _⟩ :=
        proof_of_work_spec H bc.difficulty fuel _ b hs hpow
      have hpair := Option.some.inj hmine
      have hbc : bc' = { bc with chain := bc.chain ++ [{ b with hash := hs }],
                                 pending_transactions := [] } :=
        (congrArg Prod.fst hpair).symm
      subst hbc
      have hseal : ({ b with hash := hs } : Block).hash =
          calculate_hash H ({ b with hash := hs }) := by
        show hs = calculate_hash H ({ b with hash := hs })
        have : calculate_hash H ({ b with hash := hs }) = calculate_hash H b := rfl
        rw [this, p2]
      have hprev : ({ b with hash := hs } : Block).previous_hash = (lastOf g rest).hash := by
        show b.previous_hash = (lastOf g rest).hash
        rw [p6]
        rfl
      refine ⟨⟨g, rest ++ [{ b with hash := hs }], ?_, hg1, hg2, hg3, hg4, ?_, ?_⟩, by simp⟩
      · show bc.chain ++ [{ b with hash := hs }] = g :: (rest ++ [{ b with hash := hs }])
        rw [hchain]
        rfl
      · exact linked_append_sealed H rest g _ hlink hseal hprev
      · intro blk hblk t ht
        rcases List.mem_append.mp hblk with hblk | hblk
        · exact htxs blk hblk t ht
        · have hb : blk = { b with hash := hs } := by simpa using hblk
          subst hb
          have htr : ({ b with hash := hs } : Block).transactions =
              bc.pending_transactions := by
            show b.transactions = bc.pending_transactions
            rw [p4]
            rfl
          rw [htr] at ht
          exact hpend t ht

theorem reachable_inv (H : HashFn) (bc : Blockchain) (h : Reachable H bc) : ChainInv H bc := by
  induction h with
  | init timestamp fuel bc h => exact inv_init H timestamp fuel bc h
  | submit bc s r a _ ih => exact inv_submit H bc s r a ih
  | mine bc timestamp fuel bc' r _ hm ih => exact inv_mine H timestamp fuel bc bc' r ih hm

/-! ### Further helper lemmas -/

theorem pow_result_shape (H : HashFn) (d fuel : Nat) (b b' : Block) (h : String)
    (heq : proof_of_work H d fuel b = some (b', h)) :
    b' = { b with nonce := b'.nonce } := by
  obtain ⟨_, _, h3, h4, h5, h6, h7, _⟩ := proof_of_work_spec H d fuel b b' h heq
  cases b'
  cases b
  simp_all

theorem linked_chain_get (H : HashFn) (g : Block) (rest : List Block)
    (hlink : Linked H g rest) (j : Nat) (hj : j + 1 < (g :: rest).length) :
    ((g :: rest).get ⟨j + 1, hj⟩).previous_hash =
      ((g :: rest).get ⟨j, by simp at hj ⊢; omega⟩).hash ∧
    ((g :: rest).get ⟨j + 1, hj⟩).hash =
      calculate_hash H ((g :: rest).get ⟨j + 1, hj⟩) := by
  have hj' : j < rest.length := by simpa using hj
  obtain ⟨ha, hb⟩ := linked_get H rest g hlink j hj'
  exact ⟨hb, ha⟩

/-! ### Concrete instances used to witness the theorems -/

/-- A degenerate hash function mapping everything to a winning digest. -/
def Hc : HashFn := fun _ => "0000"

/-- The genesis block produced by `Blockchain.init Hc "t" 0`. -/
def gBlock : Block :=
  { index := 0, transactions := [genesisTransaction], timestamp := "t",
    previous_hash := "0", nonce := 0, hash := "0000" }

/-- The freshly constructed chain under `Hc` with timestamp `"t"`. -/
def bcGen : Blockchain :=
  { chain := [gBlock], difficulty := 4, pending_transactions := [] }

/-- A hash function whose search succeeds first at nonce 1. -/
def Hn : HashFn := fun d => if d.nonce = 0 then "1111" else "0000"

/-- A starting block holding a stale nonce, for the restart witness. -/
def bStart : Block :=
  { index := 0, transactions := [genesisTransaction], timestamp := "t",
    previous_hash := "0", nonce := 5, hash := "0000" }

/-- The block `proof_of_work Hn 4 1` finds from `bStart`. -/
def bWon : Block :=
  { index := 0, transactions := [genesisTransaction], timestamp := "t",
    previous_hash := "0", nonce := 1, hash := "0000" }

/-- A one-pending-transaction state over `bcGen`, for the mining witness. -/
def bcPend : Blockchain :=
  { chain := [gBlock], difficulty := 4,
    pending_transactions := [{ sender := "Alice", receiver := "Bob", amount := 2 }] }

/-- The block mined from `bcPend` under `Hc`. -/
def bMined : Block :=
  { index := 1, transactions := [{ sender := "Alice", receiver := "Bob", amount := 2 }],
    timestamp := "t", previous_hash := "0000", nonce := 0, hash := "0000" }

/-- The state after mining `bcPend` under `Hc`. -/
def bcMined : Blockchain :=
  { chain := [gBlock, bMined], difficulty := 4, pending_transactions := [] }

/-! ### Claims -/

/-- Claim C2: whenever `proof_of_work` returns, the returned digest's first
`difficulty` hex characters are all `'0'`, and recomputing the digest from
the block's stored fields (including the stored nonce, and after the stored
hash is overwritten with the returned digest) reproduces exactly that digest. -/
theorem claim_C2 (H : HashFn) (difficulty fuel : Nat) (b b' : Block) (h : String)
    (heq : proof_of_work H difficulty fuel b = some (b', h)) :
    meetsDifficulty difficulty h = true ∧
    calculate_hash H b' = h ∧
    calculate_hash H { b' with hash := h } = h := by
  obtain ⟨h1, h2, _⟩ := proof_of_work_spec H difficulty fuel b b' h heq
  refine ⟨h1, h2, ?_⟩
  have : calculate_hash H ({ b' with hash := h }) = calculate_hash H b' := rfl
  rw [this, h2]

theorem claim_C2_witness :
    meetsDifficulty 4 "0000" = true ∧ calculate_hash Hc gBlock = "0000" ∧
      calculate_hash Hc { gBlock with hash := "0000" } = "0000" :=
  claim_C2 Hc 4 0 gBlock gBlock "0000" (by decide)

/-- Claim C5: a freshly constructed chain has exactly one block; its
`previous_hash` is `"0"`, its hash meets the difficulty target, and it is
exactly the candidate genesis block sealed by the same `proof_of_work`
search as any other block. -/
theorem claim_C5 (H : HashFn) (ts : String) (fuel : Nat) (bc : Blockchain)
    (h : Blockchain.init H ts fuel = some bc) :
    bc.chain.length = 1 ∧
    ∃ g, bc.chain = [g] ∧ g.previous_hash = "0" ∧
      meetsDifficulty bc.difficulty g.hash = true ∧
      g.hash = calculate_hash H g ∧
      ∃ pw, proof_of_work H bc.difficulty fuel
          (Block.make H 0 [genesisTransaction] ts "0" 0) = some pw ∧
        g = { pw.1 with hash := pw.2 } := by
  simp only [Blockchain.init, create_genesis_block] at h
  rcases hpow : proof_of_work H 4 fuel (Block.make H 0 [genesisTransaction] ts "0" 0)
    with _ | ⟨b, hs⟩
  · rw [hpow] at h
    exact Option.noConfusion h
  · rw [hpow] at h
    obtain ⟨h1, h2, _, _, _, h6, _, _⟩ := proof_of_work_spec H 4 fuel _ b hs hpow
    have hbc := Option.some.inj h
    subst hbc
    refine ⟨by simp, { b with hash := hs }, by simp, ?_, h1, ?_, (b, hs), hpow, rfl⟩
    · show b.previous_hash = "0"
      rw [h6]
      rfl
    · show hs = calculate_hash H ({ b with hash := hs })
      have : calculate_hash H ({ b with hash := hs }) = calculate_hash H b := rfl
      rw [this, h2]

theorem claim_C5_witness :
    bcGen.chain.length = 1 ∧
    ∃ g, bcGen.chain = [g] ∧ g.previous_hash = "0" ∧
      meetsDifficulty bcGen.difficulty g.hash = true ∧
      g.hash = calculate_hash Hc g ∧
      ∃ pw, proof_of_work Hc bcGen.difficulty 0
          (Block.make Hc 0 [genesisTransaction] "t" "0" 0) = some pw ∧
        g = { pw.1 with hash := pw.2 } :=
  claim_C5 Hc "t" 0 bcGen (by decide)

/-- Claim C9: `proof_of_work` discards the block's prior nonce (any starting
nonce yields the same outcome as starting from 0); when it returns, the
stored nonce is the least nonce whose digest meets the difficulty target;
and running `proof_of_work` again on the sealed block returns the very same
block and digest. -/
theorem claim_C9 (H : HashFn) (difficulty fuel : Nat) (b : Block) :
    (∀ k, proof_of_work H difficulty fuel { b with nonce := k } =
      proof_of_work H difficulty fuel b) ∧
    ∀ b' h, proof_of_work H difficulty fuel b = some (b', h) →
      (meetsDifficulty difficulty (calculate_hash H { b with nonce := b'.nonce }) = true ∧
       ∀ m, m < b'.nonce →
         meetsDifficulty difficulty (calculate_hash H { b with nonce := m }) = false) ∧
      proof_of_work H difficulty fuel { b' with hash := h } =
        some ({ b' with hash := h }, h) := by
  refine ⟨fun k => proof_of_work_ignores_nonce H difficulty fuel b k, ?_⟩
  intro b' h heq
  obtain ⟨h1, h2, _, _, _, _, _, h8⟩ := proof_of_work_spec H difficulty fuel b b' h heq
  have hshape : b' = { b with nonce := b'.nonce } :=
    pow_result_shape H difficulty fuel b b' h heq
  refine ⟨⟨?_, h8⟩, ?_⟩
  · rw [← hshape, h2]
    exact h1
  · have e0 : proof_of_work H difficulty fuel { b' with hash := h } =
        powLoop H difficulty fuel { { b' with nonce := 0 } with hash := h } := rfl
    have e2 : ({ b' with nonce := 0 } : Block) = { b with nonce := 0 } := by
      rw [hshape]
    rw [e0, powLoop_hash_irrelevant, e2]
    have e3 : powLoop H difficulty fuel { b with nonce := 0 } = some (b', h) := heq
    rw [e3]
    rfl

theorem claim_C9_witness :
    ((meetsDifficulty 4 (calculate_hash Hn { bStart with nonce := bWon.nonce }) = true ∧
      ∀ m, m < bWon.nonce →
        meetsDifficulty 4 (calculate_hash Hn { bStart with nonce := m }) = false) ∧
     proof_of_work Hn 4 1 { bWon with hash := "0000" } =
       some ({ bWon with hash := "0000" }, "0000")) ∧
    proof_of_work Hn 4 1 { bStart with nonce := 99 } = proof_of_work Hn 4 1 bStart :=
  ⟨(claim_C9 Hn 4 1 bStart).2 bWon "0000" (by decide), (claim_C9 Hn 4 1 bStart).1 99⟩

/-- Claim C3: every chain state reachable from a fresh chain by
`add_transaction`/`mine_block` calls alone passes `is_chain_valid`, and
pointwise every non-genesis block links to its predecessor's stored hash
and stores its own recomputed digest. -/
theorem claim_C3 (H : HashFn) (bc : Blockchain) (h : Reachable H bc) :
    is_chain_valid H bc = true ∧
    ∀ i (h1 : 1 ≤ i) (h2 : i < bc.chain.length),
      (bc.chain.get ⟨i, h2⟩).previous_hash =
        (bc.chain.get ⟨i - 1, by omega⟩).hash ∧
      (bc.chain.get ⟨i, h2⟩).hash = calculate_hash H (bc.chain.get ⟨i, h2⟩) := by
  obtain ⟨⟨g, rest, hchain, _, _, _, _, hlink, _⟩, _⟩ := reachable_inv H bc h
  constructor
  · rw [is_chain_valid, is_chain_valid_report, hchain]
    show (validateFrom H g rest 1).isNone = true
    rw [validateFrom_eq_none_of_linked H rest g 1 hlink]
    rfl
  · have key : ∀ (l : List Block), l = g :: rest →
        ∀ i (h1 : 1 ≤ i) (h2 : i < l.length),
          (l.get ⟨i, h2⟩).previous_hash = (l.get ⟨i - 1, by omega⟩).hash ∧
          (l.get ⟨i, h2⟩).hash = calculate_hash H (l.get ⟨i, h2⟩) := by
      intro l hl
      subst hl
      intro i h1 h2
      obtain ⟨j, rfl⟩ : ∃ j, i = j + 1 := ⟨i - 1, by omega⟩
      exact linked_chain_get H g rest hlink j h2
    exact key bc.chain hchain

theorem claim_C3_witness :
    is_chain_valid Hc bcGen = true ∧
    ∀ i (h1 : 1 ≤ i) (h2 : i < bcGen.chain.length),
      (bcGen.chain.get ⟨i, h2⟩).previous_hash =
        (bcGen.chain.get ⟨i - 1, by omega⟩).hash ∧
      (bcGen.chain.get ⟨i, h2⟩).hash = calculate_hash Hc (bcGen.chain.get ⟨i, h2⟩) :=
  claim_C3 Hc bcGen (Reachable.init "t" 0 bcGen (by decide))

/-- Claim C4: `mine_block` on an empty buffer reports failure and changes
nothing; whenever it returns on a non-empty buffer it reports success,
appends exactly one block carrying exactly the prior buffer (in order),
clears the buffer, and leaves everything else unchanged. -/
theorem claim_C4 (H : HashFn) (ts : String) (fuel : Nat) (bc : Blockchain) :
    (bc.pending_transactions = [] → mine_block H ts fuel bc = some (bc, false)) ∧
    (bc.pending_transactions ≠ [] →
      ∀ bc' r, mine_block H ts fuel bc = some (bc', r) →
        r = true ∧ bc'.pending_transactions = [] ∧ bc'.difficulty = bc.difficulty ∧
        ∃ b, bc'.chain = bc.chain ++ [b] ∧
          b.transactions = bc.pending_transactions) := by
  constructor
  · intro hpe
    rw [mine_block, if_pos (by simp [hpe])]
  · intro hpe bc' r hmine
    have hne : ¬ bc.pending_transactions.isEmpty = true := by
      simpa [List.isEmpty_iff] using hpe
    rw [mine_block, if_neg hne] at hmine
    rcases hlb : get_latest_block bc with _ | latest
    · rw [hlb] at hmine
      exact Option.noConfusion hmine
    · rw [hlb] at hmine
      simp only [] at hmine
      rcases hpow : proof_of_work H bc.difficulty fuel
          (Block.make H bc.chain.length bc.pending_transactions ts latest.hash 0)
        with _ | ⟨b, hs⟩
      · rw [hpow] at hmine
        exact Option.noConfusion hmine
      · rw [hpow] at hmine
        obtain ⟨_, _, _, p4, _, _, _, _⟩ :=
          proof_of_work_spec H bc.difficulty fuel _ b hs hpow
        have hpair := Option.some.inj hmine
        have hbc : bc' = { bc with chain := bc.chain ++ [{ b with hash := hs }],
                                   pending_transactions := [] } :=
          (congrArg Prod.fst hpair).symm
        have hr : r = true := (congrArg Prod.snd hpair).symm
        subst hbc
        refine ⟨hr, rfl, rfl, { b with hash := hs }, rfl, ?_⟩
        show b.transactions = bc.pending_transactions
        rw [p4]
        rfl

theorem claim_C4_witness :
    mine_block Hc "t" 0 bcGen = some (bcGen, false) ∧
    (true = true ∧ bcMined.pending_transactions = [] ∧
      bcMined.difficulty = bcPend.difficulty ∧
      ∃ b, bcMined.chain = bcPend.chain ++ [b] ∧
        b.transactions = bcPend.pending_transactions) :=
  ⟨(claim_C4 Hc "t" 0 bcGen).1 rfl,
   (claim_C4 Hc "t" 0 bcPend).2 (by decide) bcMined true (by decide)⟩

/-- Claim C7: `add_transaction` succeeds exactly when sender and receiver
are non-empty and the amount is positive; on success it appends exactly
that transaction to the pending buffer, on failure it changes nothing, and
in both cases the block sequence is untouched. -/
theorem claim_C7 (bc : Blockchain) (s r : String) (a : Rat) :
    ((add_transaction bc s r a).2 = true ↔ (s ≠ "" ∧ r ≠ "" ∧ 0 < a)) ∧
    (add_transaction bc s r a).1.chain = bc.chain ∧
    (add_transaction bc s r a).1.difficulty = bc.difficulty ∧
    ((add_transaction bc s r a).2 = true →
      (add_transaction bc s r a).1.pending_transactions =
        bc.pending_transactions ++ [{ sender := s, receiver := r, amount := a }]) ∧
    ((add_transaction bc s r a).2 = false → (add_transaction bc s r a).1 = bc) := by
  by_cases hc : s ≠ "" ∧ r ≠ "" ∧ 0 < a
  · rw [add_transaction]
    rw [if_pos hc]
    simpa using hc
  · rw [add_transaction]
    rw [if_neg hc]
    simpa using hc

theorem claim_C7_witness :
    (add_transaction bcGen "Alice" "Bob" 2).1.pending_transactions =
      bcGen.pending_transactions ++ [{ sender := "Alice", receiver := "Bob", amount := 2 }] :=
  (claim_C7 bcGen "Alice" "Bob" 2).2.2.2.1 (by decide)

/-- A hash function distinguishing the blocks of the tamper witnesses. -/
def Ht : HashFn := fun d =>
  if d.index = 0 then "0000"
  else if d.transactions = [{ sender := "Alice", receiver := "Bob", amount := 2 }] then "00001"
  else "0000X"

/-- A sealed non-genesis block, valid under `Ht`. -/
def b1 : Block :=
  { index := 1, transactions := [{ sender := "Alice", receiver := "Bob", amount := 2 }],
    timestamp := "t", previous_hash := "0000", nonce := 0, hash := "00001" }

/-- `b1` with a tampered transaction amount and an unchanged stored hash. -/
def b1bad : Block :=
  { b1 with transactions := [{ sender := "Alice", receiver := "Bob", amount := 100 }] }

/-- A valid two-block chain under `Ht`. -/
def bcW : Blockchain :=
  { chain := [gBlock, b1], difficulty := 4, pending_transactions := [] }

/-- The genesis block with tampered content and an unchanged stored hash. -/
def g0bad : Block :=
  { gBlock with transactions := [], nonce := 99 }

/-- Claim C1: in a valid chain, replacing the sealed block at any position
`i ≥ 1` by a block with the same stored hash but whose recomputed digest no
longer matches it (the effect of mutating any hashed field under a
collision-free digest) makes `is_chain_valid` return false, reporting index
`i` as tampered. -/
theorem claim_C1 (H : HashFn) (bc : Blockchain) (i : Nat) (b' : Block)
    (hvalid : is_chain_valid H bc = true) (h1 : 1 ≤ i) (h2 : i < bc.chain.length)
    (hhash : b'.hash = (bc.chain.get ⟨i, h2⟩).hash)
    (hne : calculate_hash H b' ≠ b'.hash) :
    is_chain_valid H { bc with chain := bc.chain.set i b' } = false ∧
    is_chain_valid_report H { bc with chain := bc.chain.set i b' } =
      some (TamperReport.badHash i) := by
  rcases hch : bc.chain with _ | ⟨g, rest⟩
  · rw [hch] at h2
    simp at h2
  · have hvalid' : (validateFrom H g rest 1).isNone = true := by
      rw [is_chain_valid, is_chain_valid_report, hch] at hvalid
      exact hvalid
    have hnone := Option.isNone_iff_eq_none.mp hvalid'
    have hlink := linked_of_validateFrom_eq_none H rest g 1 hnone
    obtain ⟨j, rfl⟩ : ∃ j, i = j + 1 := ⟨i - 1, by omega⟩
    have hj : j < rest.length := by
      rw [hch] at h2
      simpa using h2
    have hset : (g :: rest).set (j + 1) b' =
        g :: (rest.take j ++ b' :: rest.drop (j + 1)) := by
      show g :: rest.set j b' = g :: (rest.take j ++ b' :: rest.drop (j + 1))
      rw [List.set_eq_take_cons_drop b' hj]
    have hlen : (rest.take j).length = j := by
      rw [List.length_take]
      omega
    have hrep2 : is_chain_valid_report H { bc with chain := (g :: rest).set (j + 1) b' } =
        some (TamperReport.badHash (j + 1)) := by
      rw [hset]
      show validateFrom H g (rest.take j ++ b' :: rest.drop (j + 1)) 1 =
        some (TamperReport.badHash (j + 1))
      rw [validateFrom_badHash_at H (rest.take j) g b' (rest.drop (j + 1)) 1
        (linked_take H rest g j hlink) (Ne.symm hne)]
      rw [hlen]
      have harith : 1 + j = j + 1 := Nat.add_comm 1 j
      rw [harith]
    exact ⟨by rw [is_chain_valid, hrep2]; rfl, hrep2⟩

theorem claim_C1_witness :
    is_chain_valid Ht bcW = true ∧
    b1bad.hash = (bcW.chain.get ⟨1, by decide⟩).hash ∧
    calculate_hash Ht b1bad ≠ b1bad.hash ∧
    (is_chain_valid Ht { bcW with chain := bcW.chain.set 1 b1bad } = false ∧
     is_chain_valid_report Ht { bcW with chain := bcW.chain.set 1 b1bad } =
       some (TamperReport.badHash 1)) :=
  ⟨by decide, by decide, by decide,
   claim_C1 Ht bcW 1 b1bad (by decide) (by decide) (by decide) (by decide) (by decide)⟩

/-- Claim C6: the scan of `is_chain_valid` runs from index 1 upward; a
digest mismatch at the first failing position is reported as tampering at
that index no matter what follows it; the linkage check runs only after the
digest check passes and is likewise reported at that index independently of
later blocks; and the result depends on the genesis block only through its
stored hash (its own digest is never re-verified and it gets no linkage
check). -/
theorem claim_C6 (H : HashFn) (d : Nat) (p : List Transaction) :
    (∀ (g cur : Block) (pre : List Block), Linked H g pre →
      cur.hash ≠ calculate_hash H cur →
      ∀ tail, is_chain_valid_report H
          { chain := g :: pre ++ cur :: tail, difficulty := d, pending_transactions := p } =
        some (TamperReport.badHash (1 + pre.length))) ∧
    (∀ (g cur : Block) (pre : List Block), Linked H g pre →
      cur.hash = calculate_hash H cur →
      cur.previous_hash ≠ (lastOf g pre).hash →
      ∀ tail, is_chain_valid_report H
          { chain := g :: pre ++ cur :: tail, difficulty := d, pending_transactions := p } =
        some (TamperReport.badLink (1 + pre.length))) ∧
    (∀ (g g' : Block) (rest : List Block), g.hash = g'.hash →
      is_chain_valid_report H
          { chain := g :: rest, difficulty := d, pending_transactions := p } =
        is_chain_valid_report H
          { chain := g' :: rest, difficulty := d, pending_transactions := p }) := by
  refine ⟨?_, ?_, ?_⟩
  · intro g cur pre hl hne tail
    show validateFrom H g (pre ++ cur :: tail) 1 =
      some (TamperReport.badHash (1 + pre.length))
    exact validateFrom_badHash_at H pre g cur tail 1 hl hne
  · intro g cur pre hl hh hne tail
    show validateFrom H g (pre ++ cur :: tail) 1 =
      some (TamperReport.badLink (1 + pre.length))
    exact validateFrom_badLink_at H pre g cur tail 1 hl hh hne
  · intro g g' rest hgg
    show validateFrom H g rest 1 = validateFrom H g' rest 1
    exact validateFrom_congr_head H g g' rest 1 hgg

theorem claim_C6_witness :
    is_chain_valid_report Ht
        { chain := gBlock :: [] ++ b1bad :: [], difficulty := 4,
          pending_transactions := [] } =
      some (TamperReport.badHash (1 + List.length ([] : List Block))) :=
  (claim_C6 Ht 4 []).1 gBlock b1bad [] True.intro (by decide) []

/-- Claim C10: tampering with the genesis block's own content is never
detected — replacing the genesis block of a valid chain by any block with
the same stored hash leaves `is_chain_valid` returning true, since the scan
starts at index 1 and reads only the stored genesis hash. -/
theorem claim_C10 (H : HashFn) (bc : Blockchain) (g' : Block)
    (hvalid : is_chain_valid H bc = true) (h0 : 0 < bc.chain.length)
    (hh : g'.hash = (bc.chain.get ⟨0, h0⟩).hash) :
    is_chain_valid H { bc with chain := bc.chain.set 0 g' } = true := by
  rcases hch : bc.chain with _ | ⟨g, rest⟩
  · rw [hch] at h0
    simp at h0
  · have hvalid' : (validateFrom H g rest 1).isNone = true := by
      rw [is_chain_valid, is_chain_valid_report, hch] at hvalid
      exact hvalid
    have hnone := Option.isNone_iff_eq_none.mp hvalid'
    have hg : g'.hash = g.hash := by
      have key : ∀ (l : List Block), l = g :: rest →
          ∀ h0' : 0 < l.length, g'.hash = (l.get ⟨0, h0'⟩).hash → g'.hash = g.hash := by
        intro l hl
        subst hl
        intro h0' hh'
        exact hh'
      exact key bc.chain hch h0 hh
    rw [is_chain_valid]
    show (validateFrom H g' rest 1).isNone = true
    rw [validateFrom_congr_head H g' g rest 1 hg, hnone]
    rfl

theorem claim_C10_witness :
    is_chain_valid Ht bcW = true ∧
    is_chain_valid Ht { bcW with chain := bcW.chain.set 0 g0bad } = true :=
  ⟨by decide, claim_C10 Ht bcW g0bad (by decide) (by decide) (by decide)⟩

/-- Claim C8 counterexample: the genesis block's synthetic network-issuance
transaction is stored in a reachable chain and violates the Transaction
invariant, since its amount is 0, not positive. -/
theorem claim_C8_counterexample :
    Reachable Hc bcGen ∧ gBlock ∈ bcGen.chain ∧
    genesisTransaction ∈ gBlock.transactions ∧ ¬ txOk genesisTransaction := by
  refine ⟨Reachable.init "t" 0 bcGen (by decide), by simp [bcGen], by simp [gBlock], ?_⟩
  intro hok
  have hlt := hok.2.2
  norm_num [genesisTransaction] at hlt

/-- Claim C8 (amended): every transaction in the pending buffer and in every
non-genesis block satisfies the Transaction invariant; the genesis block
holds exactly the synthetic network-issuance transaction, whose sender and
receiver are non-empty but whose amount is 0 (violating `amount > 0`). -/
theorem claim_C8_amended (H : HashFn) (bc : Blockchain) (h : Reachable H bc) :
    (∀ t ∈ bc.pending_transactions, txOk t) ∧
    (∀ i (h1 : 1 ≤ i) (h2 : i < bc.chain.length),
      ∀ t ∈ (bc.chain.get ⟨i, h2⟩).transactions, txOk t) ∧
    (∀ h0 : 0 < bc.chain.length,
      (bc.chain.get ⟨0, h0⟩).transactions = [genesisTransaction]) ∧
    genesisTransaction.sender ≠ "" ∧ genesisTransaction.receiver ≠ "" ∧
    genesisTransaction.amount = 0 := by
  obtain ⟨⟨g, rest, hchain, _, _, hg3, _, _, htxs⟩, hpend⟩ := reachable_inv H bc h
  refine ⟨hpend, ?_, ?_, by decide, by decide, rfl⟩
  · have key : ∀ (l : List Block), l = g :: rest →
        ∀ i (h1 : 1 ≤ i) (h2 : i < l.length),
          ∀ t ∈ (l.get ⟨i, h2⟩).transactions, txOk t := by
      intro l hl
      subst hl
      intro i h1 h2 t ht
      obtain ⟨j, rfl⟩ : ∃ j, i = j + 1 := ⟨i - 1, by omega⟩
      have hj : j < rest.length := by simpa using h2
      have hmem : rest.get ⟨j, hj⟩ ∈ rest := rest.get_mem j hj
      exact htxs _ hmem t ht
    exact key bc.chain hchain
  · have key2 : ∀ (l : List Block), l = g :: rest →
        ∀ h0 : 0 < l.length, (l.get ⟨0, h0⟩).transactions = [genesisTransaction] := by
      intro l hl
      subst hl
      intro h0
      exact hg3
    exact key2 bc.chain hchain

theorem claim_C8_amended_witness :
    (∀ t ∈ bcGen.pending_transactions, txOk t) ∧
    (∀ i (h1 : 1 ≤ i) (h2 : i < bcGen.chain.length),
      ∀ t ∈ (bcGen.chain.get ⟨i, h2⟩).transactions, txOk t) ∧
    (∀ h0 : 0 < bcGen.chain.length,
      (bcGen.chain.get ⟨0, h0⟩).transactions = [genesisTransaction]) ∧
    genesisTransaction.sender ≠ "" ∧ genesisTransaction.receiver ≠ "" ∧
    genesisTransaction.amount = 0 :=
  claim_C8_amended Hc bcGen (Reachable.init "t" 0 bcGen (by decide))
